import Mathlib

/-!
A verification development for `find_commits.py`, a CLI tool that locates git
commits by author and date across repositories found under root directories.

The script is shallowly embedded: directory scanning (`find_git_repos`) is a
recursion over a rose tree of directories, the git backend (opening a
repository, listing refs, iterating commits) is modelled as per-repository
behaviour data consumed by `search_commits_in_repo` and `search_date_range`,
and the adjacent-date expansion loop (`search_adjacent_dates`) is a recursion
over the finite stream of operator responses.  Calendar dates are modelled as
integers (day numbers); a one-day search window is identified with its day.
-/

/-! ## Directory scanner (`find_git_repos`, lines 31-110)

A directory tree node carries the directory name, the classification the
`Repo(root)` call would produce if the directory holds a `.git` entry
(`valid` = opens and not bare, `bare` = opens and bare, `invalid` = the
constructor raises), and the subdirectories.  Plain files are not modelled:
`os.walk` never visits them and the scanner only tests the `.git` child,
which is a directory in every repository the scanner can accept. -/

inductive RepoKind where
  | valid
  | bare
  | invalid
deriving DecidableEq, Repr

inductive DirNode where
  | mk : String → RepoKind → List DirNode → DirNode

def DirNode.name : DirNode → String
  | .mk n _ _ => n

def DirNode.kind : DirNode → RepoKind
  | .mk _ c _ => c

def DirNode.children : DirNode → List DirNode
  | .mk _ _ cs => cs

/-- The `SKIP_DIRS` set of `find_commits.py` (lines 36-52). -/
def SKIP_DIRS : List String :=
  ["node_modules", "vendor", "tmp", "temp", "dist", "build", "target",
   "venv", ".venv", ".env", "__pycache__", ".next", ".cache", "coverage", "logs"]

/-- Everything one run of the scanner produces: the counters of `SearchStats`
touched by `find_git_repos`, the collected repository list (paths, as segment
lists) and, for reasoning about traversal, the list of directories `os.walk`
actually visited. -/
structure ScanOut where
  scanned : Nat
  skipped : Nat
  gitFound : Nat
  invalidGit : Nat
  bareRepos : Nat
  repos : List (List String)
  visited : List (List String)
deriving DecidableEq, Repr

def emptyScan : ScanOut := ⟨0, 0, 0, 0, 0, [], []⟩

def combineScan (a b : ScanOut) : ScanOut :=
  ⟨a.scanned + b.scanned, a.skipped + b.skipped, a.gitFound + b.gitFound,
   a.invalidGit + b.invalidGit, a.bareRepos + b.bareRepos,
   a.repos ++ b.repos, a.visited ++ b.visited⟩

/-- `os.path.isdir(os.path.join(root, '.git'))` (line 79): the directory has a
child directory named `.git`. -/
def hasGitEntry (children : List DirNode) : Bool :=
  children.any (fun c => c.name = ".git")

/-- The body of the walk loop for one visited directory (lines 76-95):
`total_dirs_scanned` is always incremented; when a `.git` entry is present,
`total_git_dirs_found` is incremented and the classification of `Repo(root)`
decides between appending to `repos`, counting a bare repository, or counting
an invalid one. -/
def dirStep (here : List String) (hasGit : Bool) (k : RepoKind) : ScanOut :=
  if hasGit then
    match k with
    | .valid => { emptyScan with scanned := 1, gitFound := 1, repos := [here], visited := [here] }
    | .bare => { emptyScan with scanned := 1, gitFound := 1, bareRepos := 1, visited := [here] }
    | .invalid => { emptyScan with scanned := 1, gitFound := 1, invalidGit := 1, visited := [here] }
  else { emptyScan with scanned := 1, visited := [here] }

/-- Whether the `SKIP_DIRS` pruning of lines 98-100 runs for this directory.
When classification raises (lines 91-95) the `continue` skips the pruning, so
the walk descends into every child; in every other case only children named in
`SKIP_DIRS` are pruned.  No case prunes the whole subtree. -/
def descPrune (hasGit : Bool) (k : RepoKind) : Bool :=
  !(hasGit && k == .invalid)

mutual
/-- The `os.walk(base_dir, topdown=True)` traversal with the loop body of
lines 76-100 of `find_commits.py`: visit the directory, then visit the
children that survive pruning. -/
def walkDir (skip : List String) (path : List String) : DirNode → ScanOut
  | .mk nm k children =>
    combineScan (dirStep (path ++ [nm]) (hasGitEntry children) k)
      (walkChildren skip (path ++ [nm]) (descPrune (hasGitEntry children) k) children)

/-- Children traversal: a pruned child adds one to `total_dirs_skipped`
(line 100) and is not visited; every other child is walked. -/
def walkChildren (skip : List String) (path : List String) (prune : Bool) : List DirNode → ScanOut
  | [] => emptyScan
  | c :: cs =>
    if prune && skip.contains c.name then
      combineScan { emptyScan with skipped := 1 } (walkChildren skip path prune cs)
    else
      combineScan (walkDir skip path c) (walkChildren skip path prune cs)
end

/-- `find_git_repos` over a list of (existing) base directories, when no
operator interrupt arrives. -/
def find_git_repos : List DirNode → ScanOut
  | [] => emptyScan
  | b :: bs => combineScan (walkDir SKIP_DIRS [] b) (find_git_repos bs)

/-! ### Cancellable scanner (claim C2)

A `KeyboardInterrupt` is modelled as arriving at a directory-visit boundary:
the walk keeps a counter of directories visited so far and the interrupt index
`some j` fires when the counter reaches `j`.  Lines 102-103 turn the interrupt
into `raise SearchCancelled`, so the local `repos` list of `find_git_repos` is
abandoned: the embedded function returns `Except.error ()` carrying nothing.
(The caller-owned `stats` object keeps the mutations made before the
interrupt; the repository list, the value the claim is about, is local to
`find_git_repos` and is lost.) -/

mutual
def walkDirC (skip : List String) (intr : Option Nat) (path : List String)
    (cnt : Nat) (acc : List (List String)) : DirNode → Except Unit (Nat × List (List String))
  | .mk nm k children =>
    if intr = some cnt then .error ()
    else
      walkChildrenC skip intr (path ++ [nm]) (cnt + 1)
        (acc ++ (dirStep (path ++ [nm]) (hasGitEntry children) k).repos)
        (descPrune (hasGitEntry children) k) children

def walkChildrenC (skip : List String) (intr : Option Nat) (path : List String)
    (cnt : Nat) (acc : List (List String)) (prune : Bool) :
    List DirNode → Except Unit (Nat × List (List String))
  | [] => .ok (cnt, acc)
  | c :: cs =>
    if prune && skip.contains c.name then
      walkChildrenC skip intr path cnt acc prune cs
    else
      match walkDirC skip intr path cnt acc c with
      | .error e => .error e
      | .ok (cnt', acc') => walkChildrenC skip intr path cnt' acc' prune cs
end

def findGitReposGo (intr : Option Nat) (cnt : Nat) (acc : List (List String)) :
    List DirNode → Except Unit (Nat × List (List String))
  | [] => .ok (cnt, acc)
  | b :: bs =>
    match walkDirC SKIP_DIRS intr [] cnt acc b with
    | .error e => .error e
    | .ok (cnt', acc') => findGitReposGo intr cnt' acc' bs

/-- `find_git_repos` as its caller observes it: either the collected
repository list, or — when the interrupt fires during the walk — the
`SearchCancelled` exception, which carries no repository list. -/
def find_git_reposC (baseDirs : List DirNode) (intr : Option Nat) :
    Except Unit (List (List String)) :=
  match findGitReposGo intr 0 [] baseDirs with
  | .error e => .error e
  | .ok (_, acc) => .ok acc

/-! ## Commit query (`search_commits_in_repo`, lines 135-195)

The git backend (`§6` of the spec: `open`, `listRefs`, `iterCommits`) is an
external collaborator; one repository's behaviour is captured as data.
`combined` is the `repo.iter_commits(all=True, …, max_count=·)` call for a
given day, `perBranch` the per-branch `repo.iter_commits(branch, …,
max_count=·)` call; both may raise (`Except.error`).  The `since`/`until`
bounds (00:00:00 to 23:59:59.999999 of the day, lines 139-140) are arguments
of the backend call and are absorbed into the day-indexed behaviour.
`timeoutAt` says whether the query for that day exceeds the 30-second alarm of
`search_date_range` (line 372), and `dur` is the elapsed time recorded when it
does not.  The 500 MB size warning of lines 142-155 is output-only and not
modelled. -/

structure Commit where
  hexsha : String
  committed_date : Int
deriving DecidableEq, Repr

structure RepoB where
  path : List String
  opens : Bool
  refs : List String
  timeoutAt : Int → Bool
  dur : Int → Nat
  combined : Int → Nat → Except Unit (List Commit)
  perBranch : Int → String → Nat → Except Unit (List Commit)

/-- `Path(repo_path).name`. -/
def basename (path : List String) : String := path.getLastD ""

/-- `get_repo_branches` (lines 112-133): all ref names except `*/HEAD`;
if that leaves nothing, probe the fixed list of conventional branch names and
keep those present among the refs.  A failing `Repo(repo_path)` yields `[]`. -/
def get_repo_branches (r : RepoB) : List String :=
  if r.opens then
    let bs := r.refs.filter (fun n => !n.endsWith "/HEAD")
    if bs = [] then
      ["main", "master", "dev", "development"].filter (fun b => r.refs.contains b)
    else bs
  else []

/-- A backend call inside a `try`/`except: continue`: a failure contributes
nothing. -/
def okOrEmpty : Except Unit (List Commit) → List Commit
  | .ok cs => cs
  | .error _ => []

/-- The raw commit list of lines 163-188: the combined all-branches retrieval
capped at 100, falling back on failure to one capped-at-50 query per branch,
a failing branch contributing nothing. -/
def rawCommits (r : RepoB) (d : Int) : List Commit :=
  match r.combined d 100 with
  | .ok cs => cs
  | .error _ =>
    (get_repo_branches r).foldl (fun acc b => acc ++ okOrEmpty (r.perBranch d b 50)) []

/-- The dict comprehension `{commit.hexsha: commit for commit in all_commits}`
of line 189 followed by `.values()`: an association list keyed by hexsha,
first occurrence fixing the position, later occurrences overwriting the value. -/
def upsertCommit (m : List (String × Commit)) (c : Commit) : List (String × Commit) :=
  if m.any (fun p => p.1 = c.hexsha) then
    m.map (fun p => if p.1 = c.hexsha then (p.1, c) else p)
  else m ++ [(c.hexsha, c)]

def dedupByHexsha (l : List Commit) : List Commit :=
  (l.foldl upsertCommit []).map Prod.snd

/-- `search_commits_in_repo` (lines 135-195): `None` when the repository does
not open (outer `try`), when no branch resolves, or when the deduplicated
commit list is empty; otherwise the basename of the repository path paired
with the deduplicated list. -/
def search_commits_in_repo (r : RepoB) (d : Int) : Option (String × List Commit) :=
  if r.opens then
    if get_repo_branches r = [] then none
    else
      let unique := dedupByHexsha (rawCommits r d)
      if unique = [] then none else some (basename r.path, unique)
  else none

/-! ## Scheduler (`search_date_range`, lines 342-398)

Per repository: if the 30-second alarm fires during the query, the
`TimeoutError` handler records nothing at all and the loop advances;
otherwise the elapsed time is appended and a non-`None` result is merged into
the `results` defaultdict keyed by the returned repository name. -/

structure SDROut where
  results : List (String × List Commit)
  total : Nat
  times : List Nat
deriving DecidableEq, Repr

/-- `results[repo_name].extend(commits)` on a `defaultdict(list)`: appending
to the existing entry, or creating the key. -/
def extendAssoc (m : List (String × List Commit)) (k : String) (cs : List Commit) :
    List (String × List Commit) :=
  if m.any (fun p => p.1 = k) then
    m.map (fun p => if p.1 = k then (p.1, p.2 ++ cs) else p)
  else m ++ [(k, cs)]

def searchRepoStep (d : Int) (acc : SDROut) (r : RepoB) : SDROut :=
  if r.timeoutAt d then acc
  else
    match search_commits_in_repo r d with
    | some (name, cs) =>
      ⟨extendAssoc acc.results name cs, acc.total + cs.length, acc.times ++ [r.dur d]⟩
    | none => ⟨acc.results, acc.total, acc.times ++ [r.dur d]⟩

def search_date_range (repos : List RepoB) (d : Int) : SDROut :=
  repos.foldl (searchRepoStep d) ⟨[], 0, []⟩

/-! ## Display and expansion (`display_commits_by_date`, lines 239-269, and
`search_adjacent_dates`, lines 271-340)

`display_commits_by_date` flags a commit "NEW" exactly when its hexsha is not
yet in `seen_commits`, adding it at that moment.  The grouping by repository
and date and the sort keys of lines 259-263 only fix the printing order; they
permute the commit instances and therefore change neither the set of flagged
hexshas, the final seen set, nor the total count, and are not modelled. -/

def dispGo : List Commit → List String → List String × List String
  | [], seen => ([], seen)
  | c :: cs, seen =>
    if c.hexsha ∈ seen then dispGo cs seen
    else
      let r := dispGo cs (seen ++ [c.hexsha])
      (c.hexsha :: r.1, r.2)

def displayCommits (results : List (String × List Commit)) (seen : List String) :
    List String × List String × Nat :=
  let all := (results.map Prod.snd).flatten
  let r := dispGo all seen
  (r.1, r.2, all.length)

/-- All commit identifiers currently stored in the cumulative result. -/
def shasOf (m : List (String × List Commit)) : List String :=
  ((m.map Prod.snd).flatten).map Commit.hexsha

/-- Lines 316-318: for each repository of one window's results, extend the
cumulative `all_results` with the commits whose hexsha is not yet in
`seen_commits` (the seen set as it stood when the round began). -/
def mergeResults (ar : List (String × List Commit)) (seen : List String)
    (res : List (String × List Commit)) : List (String × List Commit) :=
  res.foldl (fun a p => extendAssoc a p.1 (p.2.filter (fun c => c.hexsha ∉ seen))) ar

/-- Python's `str.lower()` over the response string (character-wise ASCII
lowercasing; the responses the loop compares against are ASCII). -/
def pyLower (s : String) : String :=
  ⟨s.data.map Char.toLower⟩

/-- Lines 294-296: `Prompt.ask(..., default="y")` returns `"y"` for an empty
input, and the result is lowercased; the loop continues only when this equals
`"y"` exactly. -/
def promptLower (input : String) : String :=
  pyLower (if input = "" then "y" else input)

structure ExpState where
  all_results : List (String × List Commit)
  seen : List String
  total : Nat
deriving DecidableEq, Repr

/-- One session round as observed by the operator: the expansion offset `k`
(0 for the initial exact-date search), the days queried, the hexshas flagged
"NEW" by this round's display, the identifiers held by the cumulative result
after the round, and the displayed total. -/
structure RoundInfo where
  k : Nat
  dates : List Int
  newFlags : List String
  resShas : List String
  total : Nat
deriving DecidableEq, Repr

/-- The cumulative `all_results` after one accepted round at offset `k`
(lines 301-318): both the `date − k` window and the `date + k` window (the
latter clamped to `today`, lines 306-307) are searched, and each window's
results are merged in, filtered against the seen set as it stood when the
round began. -/
def roundARes (repos : List RepoB) (d t : Int) (k : Nat) (st : ExpState) :
    List (String × List Commit) :=
  mergeResults
    (mergeResults st.all_results st.seen
      (search_date_range repos (d - (k : Int))).results)
    st.seen
    (search_date_range repos (if d + (k : Int) > t then t else d + (k : Int))).results

/-- Lines 322-330: the redisplay of the whole cumulative result, run only when
the cumulative dict is non-empty (`if all_results:`); when it is empty, no
flags are produced and the seen set and total are unchanged. -/
def roundDisp (repos : List RepoB) (d t : Int) (k : Nat) (st : ExpState) :
    List String × List String × Nat :=
  if (roundARes repos d t k st).isEmpty then ([], st.seen, st.total)
  else displayCommits (roundARes repos d t k st) st.seen

/-- One accepted round of the expansion loop: the observable `RoundInfo` and
the state carried into the next round. -/
def expandRound (repos : List RepoB) (d t : Int) (k : Nat) (st : ExpState) :
    RoundInfo × ExpState :=
  (⟨k, [d - (k : Int), if d + (k : Int) > t then t else d + (k : Int)],
    (roundDisp repos d t k st).1, shasOf (roundARes repos d t k st),
    (roundDisp repos d t k st).2.2⟩,
   ⟨roundARes repos d t k st, (roundDisp repos d t k st).2.1,
    (roundDisp repos d t k st).2.2⟩)

/-- The `while True` loop of lines 291-332, driven by the finite list of
operator responses (an exhausted list ends the session like a decline):
each response accepted by the prompt runs one `expandRound` with
`days_to_expand` incremented afterwards; any other response breaks the loop. -/
def expandLoop (repos : List RepoB) (d t : Int) (k : Nat) (st : ExpState) :
    List String → List RoundInfo × ExpState
  | [] => ([], st)
  | resp :: rest =>
    if promptLower resp ≠ "y" then ([], st)
    else
      let r0 := expandRound repos d t k st
      let r := expandLoop repos d t (k + 1) r0.2 rest
      (r0.1 :: r.1, r.2)

/-- `search_adjacent_dates` (lines 271-340): the initial exact-date search is
displayed unconditionally into an empty seen set, then the expansion loop runs
with `days_to_expand = 1`.  `d` is the requested day, `t` the current day.
Returns the per-round trace and the final cumulative state. -/
def search_adjacent_dates (repos : List RepoB) (d t : Int) (responses : List String) :
    List RoundInfo × ExpState :=
  let ar0 := (search_date_range repos d).results
  let disp0 := displayCommits ar0 []
  let st0 : ExpState := ⟨ar0, disp0.2.1, disp0.2.2⟩
  let r := expandLoop repos d t 1 st0 responses
  (⟨0, [d], disp0.1, shasOf ar0, disp0.2.2⟩ :: r.1, r.2)

/-! ## CLI validation (`main`, lines 415-486)

`click` invokes the command; a plain `return` from the callback lets the
process terminate normally, i.e. with exit status 0.  `strptime` (an external
library call) is passed in as a function; `if date` and `if not author` are
Python truthiness tests, so an empty string behaves like an absent value. -/

inductive MainOutcome where
  | errAuthor
  | errDate
  | proceed (searchDate : Int)
deriving DecidableEq, Repr

/-- The validation prefix of `main` (lines 421-433). -/
def mainValidate (author dateArg : Option String) (strptime : String → Option Int)
    (now : Int) : MainOutcome :=
  if (match author with | none => true | some a => a = "") then .errAuthor
  else
    match (match dateArg with
           | some s => if s = "" then some now else strptime s
           | none => some now) with
    | none => .errDate
    | some sd => .proceed sd

/-- Whether the outcome terminates `main` before any repository scanning. -/
def mainStopsBeforeScan : MainOutcome → Bool
  | .errAuthor => true
  | .errDate => true
  | .proceed _ => false

/-- The process exit status when validation terminates the run: both error
branches `return` from the click callback, which exits the process with
status 0.  `none` when the run proceeds to scanning. -/
def mainExitCode : MainOutcome → Option Nat
  | .errAuthor => some 0
  | .errDate => some 0
  | .proceed _ => none

/-! # Lemmas about the scanner -/

theorem dirStep_visited (here : List String) (hg : Bool) (k : RepoKind) :
    (dirStep here hg k).visited = [here] := by
  cases hg <;> cases k <;> rfl

theorem dirStep_scanned (here : List String) (hg : Bool) (k : RepoKind) :
    (dirStep here hg k).scanned = 1 := by
  cases hg <;> cases k <;> rfl

/-- Every directory the walk is started on appears in the visited list. -/
theorem walkDir_visited_self (skip path : List String) (n : DirNode) :
    path ++ [n.name] ∈ (walkDir skip path n).visited := by
  cases n with
  | mk nm k children =>
    simp [walkDir, combineScan, dirStep_visited, DirNode.name]

/-- A child that the pruning does not remove passes its visited directories to
the parent's walk. -/
theorem walkChildren_visited_of_mem (skip path : List String) (prune : Bool)
    {c : DirNode} {x : List String} :
    ∀ {cs : List DirNode}, c ∈ cs → (prune && skip.contains c.name) = false →
      x ∈ (walkDir skip path c).visited →
      x ∈ (walkChildren skip path prune cs).visited := by
  intro cs
  induction cs with
  | nil => intro h; cases h
  | cons c' cs' ih =>
    intro hmem hns hx
    rcases List.mem_cons.mp hmem with h | h
    · subst h
      simp only [walkChildren, hns, Bool.false_eq_true, if_false, combineScan]
      exact List.mem_append.mpr (Or.inl hx)
    · by_cases hc : (prune && skip.contains c'.name) = true
      · simp only [walkChildren, hc, if_true, combineScan]
        exact List.mem_append.mpr (Or.inr (ih h hns hx))
      · simp only [walkChildren, Bool.not_eq_true] at hc ⊢
        simp only [hc, Bool.false_eq_true, if_false, combineScan]
        exact List.mem_append.mpr (Or.inr (ih h hns hx))

/-- Claim C1 (amended): a visited directory holding a `.git` entry is
classified and the outcome recorded (`total_git_dirs_found` always increments,
a Valid repository joins the result list, Bare and Invalid are counted), but
the scanner then still descends into the directory's subtree — in particular
the `.git` metadata directory itself, which is not in the skip set, is
walked. -/
theorem c1_classify_record_descend (skip path : List String) (nm : String) (k : RepoKind)
    (children : List DirNode) (hgit : hasGitEntry children = true)
    (hskip : skip.contains ".git" = false) :
    (walkDir skip path (.mk nm k children)).gitFound
        = (walkChildren skip (path ++ [nm]) (descPrune true k) children).gitFound + 1
    ∧ (k = .valid → path ++ [nm] ∈ (walkDir skip path (.mk nm k children)).repos)
    ∧ (k = .bare → 1 ≤ (walkDir skip path (.mk nm k children)).bareRepos)
    ∧ (k = .invalid → 1 ≤ (walkDir skip path (.mk nm k children)).invalidGit)
    ∧ ∀ c ∈ children, c.name = ".git" →
        (path ++ [nm]) ++ [c.name] ∈ (walkDir skip path (.mk nm k children)).visited := by
  refine ⟨?_, ?_, ?_, ?_, ?_⟩
  · cases k <;> simp [walkDir, combineScan, dirStep, hgit, Nat.add_comm]
  · intro hk; subst hk; simp [walkDir, combineScan, dirStep, hgit]
  · intro hk; subst hk; simp [walkDir, combineScan, dirStep, hgit]
  · intro hk; subst hk; simp [walkDir, combineScan, dirStep, hgit]
  · intro c hc hname
    have hns : (descPrune (hasGitEntry children) k && skip.contains c.name) = false := by
      rw [hname, hskip, Bool.and_false]
    have hch := walkChildren_visited_of_mem skip (path ++ [nm])
      (descPrune (hasGitEntry children) k) hc hns (walkDir_visited_self skip (path ++ [nm]) c)
    simp only [walkDir, combineScan]
    exact List.mem_append.mpr (Or.inr hch)

def exTreeC1 : DirNode := .mk "r" .valid [.mk ".git" .valid []]

/-- Claim C1, counterexample: on a repository whose `.git` directory is its
only child, the scan collects the repository but then walks the `.git`
directory itself — the claim's "does not descend into that directory's
subtree; the internal metadata directory is never itself walked" is false. -/
theorem c1_counterexample :
    hasGitEntry exTreeC1.children = true
    ∧ (walkDir SKIP_DIRS [] exTreeC1).repos = [["r"]]
    ∧ ["r", ".git"] ∈ (walkDir SKIP_DIRS [] exTreeC1).visited := by
  decide

/-! # Lemmas about the scheduler timeout (claim C3) -/

theorem searchRepoStep_timeout {d : Int} {r : RepoB} (h : r.timeoutAt d = true)
    (acc : SDROut) : searchRepoStep d acc r = acc := by
  simp [searchRepoStep, h]

/-- Claim C3 (amended): a repository whose query exceeds the deadline
contributes nothing whatsoever to the scheduler's output — no commits, no
count, no recorded elapsed time — and the remaining repositories are still
processed: the run is indistinguishable from one in which the timed-out
repository was absent.  (No timed-out counter exists in `SearchStats`; the
only trace is a warning printed in verbose mode.) -/
theorem c3_timeout_contributes_nothing (xs ys : List RepoB) (r : RepoB) (d : Int)
    (h : r.timeoutAt d = true) :
    search_date_range (xs ++ r :: ys) d = search_date_range (xs ++ ys) d := by
  unfold search_date_range
  rw [List.foldl_append, List.foldl_append, List.foldl_cons, searchRepoStep_timeout h]

def repoTimeoutC3 : RepoB :=
  ⟨["roots", "r1"], true, ["main"], fun _ => true, fun _ => 5,
   fun _ _ => .ok [⟨"abc0123", 0⟩], fun _ _ _ => .ok []⟩

/-- Claim C3, counterexample: a repository that times out leaves no record of
any kind in the scheduler's output — results, total and recorded times equal
those of a run without the repository, so the timeout is *not* recorded as an
outcome distinct from "no commits found" (nothing is recorded at all; the
`SearchStats` class has no timeout field). -/
theorem c3_counterexample :
    repoTimeoutC3.timeoutAt 0 = true
    ∧ search_date_range [repoTimeoutC3] 0 = search_date_range [] 0 := by
  exact ⟨rfl, rfl⟩

/-- Claim C3, witness for the amended theorem at a concrete input. -/
theorem c3_witness :
    repoTimeoutC3.timeoutAt 7 = true
    ∧ search_date_range [repoTimeoutC3, repoTimeoutC3] 7 = search_date_range [repoTimeoutC3] 7 :=
  ⟨rfl, c3_timeout_contributes_nothing [repoTimeoutC3] [] repoTimeoutC3 7 rfl⟩

/-! # CLI validation (claim C10) -/

/-- Claim C10: a missing author option, or a given date string that `strptime`
rejects, makes `main` print an error and return before any scanning; the
`return` exits the click-driven process with status 0, not a nonzero code. -/
theorem c10_validation (author dateArg : Option String) (strptime : String → Option Int)
    (now : Int) :
    (author = none →
       mainValidate author dateArg strptime now = .errAuthor
       ∧ mainStopsBeforeScan (mainValidate author dateArg strptime now) = true
       ∧ mainExitCode (mainValidate author dateArg strptime now) = some 0)
    ∧ (∀ a s, author = some a → a ≠ "" → dateArg = some s → s ≠ "" → strptime s = none →
       mainValidate author dateArg strptime now = .errDate
       ∧ mainStopsBeforeScan (mainValidate author dateArg strptime now) = true
       ∧ mainExitCode (mainValidate author dateArg strptime now) = some 0) := by
  constructor
  · intro h; subst h
    refine ⟨rfl, ?_, ?_⟩ <;> rfl
  · intro a s ha hne hd hse hstr
    subst ha; subst hd
    have : mainValidate (some a) (some s) strptime now = .errDate := by
      simp [mainValidate, hne, hse, hstr]
    exact ⟨this, by rw [this]; rfl, by rw [this]; rfl⟩

/-- Claim C10, witness: concrete instances of both validation failures. -/
theorem c10_witness :
    (mainValidate none (some "2024-01-05") (fun _ => some 0) 0 = .errAuthor
     ∧ mainStopsBeforeScan (mainValidate none (some "2024-01-05") (fun _ => some 0) 0) = true
     ∧ mainExitCode (mainValidate none (some "2024-01-05") (fun _ => some 0) 0) = some 0)
    ∧ (mainValidate (some "alice") (some "not-a-date") (fun _ => none) 0 = .errDate
       ∧ mainStopsBeforeScan (mainValidate (some "alice") (some "not-a-date") (fun _ => none) 0) = true
       ∧ mainExitCode (mainValidate (some "alice") (some "not-a-date") (fun _ => none) 0) = some 0) :=
  ⟨(c10_validation none (some "2024-01-05") (fun _ => some 0) 0).1 rfl,
   (c10_validation (some "alice") (some "not-a-date") (fun _ => none) 0).2 "alice" "not-a-date"
     rfl (by decide) rfl (by decide) rfl⟩

/-! # The cancellable scanner against the pure scanner (claim C2) -/

theorem walkDir_mk (skip path : List String) (nm : String) (k : RepoKind)
    (children : List DirNode) :
    walkDir skip path (.mk nm k children) =
      combineScan (dirStep (path ++ [nm]) (hasGitEntry children) k)
        (walkChildren skip (path ++ [nm]) (descPrune (hasGitEntry children) k) children) := rfl

mutual
theorem walkDirC_spec (skip path : List String) (j : Nat) :
    (n : DirNode) → (cnt : Nat) → (acc : List (List String)) →
    walkDirC skip (some j) path cnt acc n =
      if cnt ≤ j ∧ j < cnt + (walkDir skip path n).scanned then .error ()
      else .ok (cnt + (walkDir skip path n).scanned, acc ++ (walkDir skip path n).repos)
  | .mk nm k children, cnt, acc => by
    have hsc : (walkDir skip path (.mk nm k children)).scanned
        = 1 + (walkChildren skip (path ++ [nm])
            (descPrune (hasGitEntry children) k) children).scanned := by
      rw [walkDir_mk]; simp [combineScan, dirStep_scanned]
    have hrp : (walkDir skip path (.mk nm k children)).repos
        = (dirStep (path ++ [nm]) (hasGitEntry children) k).repos
          ++ (walkChildren skip (path ++ [nm])
              (descPrune (hasGitEntry children) k) children).repos := by
      rw [walkDir_mk]; rfl
    by_cases hj : j = cnt
    · have hpos : cnt ≤ cnt ∧ cnt < cnt + (walkDir skip path (DirNode.mk nm k children)).scanned :=
        ⟨Nat.le_refl cnt, by omega⟩
      simp [walkDirC, hj, hpos]
    · simp only [walkDirC]
      rw [if_neg (by simp [hj]), walkChildrenC_spec skip (path ++ [nm]) j
        (descPrune (hasGitEntry children) k) children (cnt + 1)
        (acc ++ (dirStep (path ++ [nm]) (hasGitEntry children) k).repos)]
      rw [hsc, hrp]
      split_ifs with h1 h2 h2
      · rfl
      · exact absurd h1 (by omega)
      · exact absurd h2 (by omega)
      · have : cnt + 1 + (walkChildren skip (path ++ [nm])
            (descPrune (hasGitEntry children) k) children).scanned
            = cnt + (1 + (walkChildren skip (path ++ [nm])
              (descPrune (hasGitEntry children) k) children).scanned) := by omega
        rw [this, List.append_assoc]

theorem walkChildrenC_spec (skip path : List String) (j : Nat) (prune : Bool) :
    (cs : List DirNode) → (cnt : Nat) → (acc : List (List String)) →
    walkChildrenC skip (some j) path cnt acc prune cs =
      if cnt ≤ j ∧ j < cnt + (walkChildren skip path prune cs).scanned then .error ()
      else .ok (cnt + (walkChildren skip path prune cs).scanned,
                acc ++ (walkChildren skip path prune cs).repos)
  | [], cnt, acc => by
    rw [if_neg (by simp [walkChildren, emptyScan])]
    simp [walkChildrenC, walkChildren, emptyScan]
  | c :: cs, cnt, acc => by
    by_cases hs : (prune && skip.contains c.name) = true
    · have hwc : walkChildren skip path prune (c :: cs)
          = combineScan { emptyScan with skipped := 1 } (walkChildren skip path prune cs) := by
        simp only [walkChildren, hs, if_true]
      simp only [walkChildrenC, hs, if_true]
      rw [walkChildrenC_spec skip path j prune cs cnt acc, hwc]
      simp [combineScan, emptyScan]
    · rw [Bool.not_eq_true] at hs
      have hwc : walkChildren skip path prune (c :: cs)
          = combineScan (walkDir skip path c) (walkChildren skip path prune cs) := by
        simp only [walkChildren, hs, Bool.false_eq_true, if_false]
      simp only [walkChildrenC, hs, Bool.false_eq_true, if_false]
      rw [walkDirC_spec skip path j c cnt acc, hwc]
      by_cases hc : cnt ≤ j ∧ j < cnt + (walkDir skip path c).scanned
      · rw [if_pos hc]
        rw [if_pos (by simp only [combineScan]; exact ⟨hc.1, by have := hc.2; omega⟩)]
      · rw [if_neg hc]
        simp only []
        rw [walkChildrenC_spec skip path j prune cs
          (cnt + (walkDir skip path c).scanned)
          (acc ++ (walkDir skip path c).repos)]
        simp only [combineScan]
        split_ifs with h1 h2 h2
        · rfl
        · exact absurd h1 (by omega)
        · exact absurd h2 (by omega)
        · have : cnt + (walkDir skip path c).scanned
              + (walkChildren skip path prune cs).scanned
              = cnt + ((walkDir skip path c).scanned
                + (walkChildren skip path prune cs).scanned) := by omega
          rw [this, List.append_assoc]
end

theorem findGitReposGo_spec (j : Nat) :
    ∀ (bs : List DirNode) (cnt : Nat) (acc : List (List String)),
    findGitReposGo (some j) cnt acc bs =
      if cnt ≤ j ∧ j < cnt + (find_git_repos bs).scanned then .error ()
      else .ok (cnt + (find_git_repos bs).scanned, acc ++ (find_git_repos bs).repos) := by
  intro bs
  induction bs with
  | nil =>
    intro cnt acc
    rw [if_neg (by simp [find_git_repos, emptyScan])]
    simp [findGitReposGo, find_git_repos, emptyScan]
  | cons b bs ih =>
    intro cnt acc
    have hfr : find_git_repos (b :: bs)
        = combineScan (walkDir SKIP_DIRS [] b) (find_git_repos bs) := rfl
    simp only [findGitReposGo]
    rw [walkDirC_spec SKIP_DIRS [] j b cnt acc, hfr]
    by_cases hc : cnt ≤ j ∧ j < cnt + (walkDir SKIP_DIRS [] b).scanned
    · rw [if_pos hc]
      rw [if_pos (by simp only [combineScan]; exact ⟨hc.1, by have := hc.2; omega⟩)]
    · rw [if_neg hc]
      simp only []
      rw [ih (cnt + (walkDir SKIP_DIRS [] b).scanned) (acc ++ (walkDir SKIP_DIRS [] b).repos)]
      simp only [combineScan]
      split_ifs with h1 h2 h2
      · rfl
      · exact absurd h1 (by omega)
      · exact absurd h2 (by omega)
      · have : cnt + (walkDir SKIP_DIRS [] b).scanned + (find_git_repos bs).scanned
            = cnt + ((walkDir SKIP_DIRS [] b).scanned + (find_git_repos bs).scanned) := by omega
        rw [this, List.append_assoc]

/-- Claim C2 (amended): an operator interrupt that fires during the walk
(while directories remain to be visited) aborts the scan immediately and
surfaces the Cancelled outcome, but the partially collected repository list is
discarded: the caller receives only the exception, which carries no list. -/
theorem c2_interrupt_discards_list (baseDirs : List DirNode) (j : Nat)
    (h : j < (find_git_repos baseDirs).scanned) :
    find_git_reposC baseDirs (some j) = .error () := by
  unfold find_git_reposC
  rw [findGitReposGo_spec j baseDirs 0 [], if_pos ⟨Nat.zero_le j, by omega⟩]

def exTreeC2 : DirNode :=
  .mk "base" .valid
    [.mk "a" .valid [.mk ".git" .valid []],
     .mk "b" .valid [.mk ".git" .valid []]]

/-- Claim C2, counterexample: under one base directory holding repositories
`a` and `b`, an uninterrupted scan returns both; interrupting at the fourth
visited directory (after repository `a` has been collected) yields only the
Cancelled error — no `.ok` list at all, so the partial list `[base/a]` is not
returned to the caller. -/
theorem c2_counterexample :
    find_git_reposC [exTreeC2] none = .ok [["base", "a"], ["base", "b"]]
    ∧ find_git_reposC [exTreeC2] (some 3) = .error ()
    ∧ ¬ ∃ l : List (List String), find_git_reposC [exTreeC2] (some 3) = .ok l := by
  refine ⟨rfl, rfl, ?_⟩
  rintro ⟨l, hl⟩
  rw [show find_git_reposC [exTreeC2] (some 3) = .error () from rfl] at hl
  exact Except.noConfusion hl

/-- Claim C2, witness for the amended theorem at a concrete input. -/
theorem c2_witness :
    1 < (find_git_repos [exTreeC2]).scanned
    ∧ find_git_reposC [exTreeC2] (some 1) = .error () :=
  ⟨by decide, c2_interrupt_discards_list [exTreeC2] 1 (by decide)⟩

/-! # Deduplication by identifier (claims C6, C7) -/

theorem upsertCommit_keys (m : List (String × Commit)) (c : Commit) :
    (upsertCommit m c).map Prod.fst =
      if m.any (fun p => p.1 = c.hexsha) then m.map Prod.fst
      else m.map Prod.fst ++ [c.hexsha] := by
  unfold upsertCommit
  split_ifs with h
  · rw [List.map_map]
    apply List.map_congr_left
    intro p _
    by_cases hp : p.1 = c.hexsha <;> simp [hp]
  · simp

theorem upsertCommit_kv (m : List (String × Commit)) (c : Commit)
    (hkv : ∀ p ∈ m, Commit.hexsha p.2 = p.1) :
    ∀ p ∈ upsertCommit m c, Commit.hexsha p.2 = p.1 := by
  intro p hp
  unfold upsertCommit at hp
  split_ifs at hp with h
  · obtain ⟨q, hq, hqe⟩ := List.mem_map.mp hp
    by_cases hq1 : q.1 = c.hexsha
    · rw [if_pos hq1] at hqe
      rw [← hqe]
      exact hq1.symm
    · rw [if_neg hq1] at hqe
      rw [← hqe]
      exact hkv q hq
  · rcases List.mem_append.mp hp with h' | h'
    · exact hkv p h'
    · rw [List.mem_singleton.mp h']

theorem foldl_upsert_keys_mem (s : String) :
    ∀ (l : List Commit) (m : List (String × Commit)),
      (s ∈ (l.foldl upsertCommit m).map Prod.fst
        ↔ s ∈ m.map Prod.fst ∨ s ∈ l.map Commit.hexsha) := by
  intro l
  induction l with
  | nil => intro m; simp
  | cons c cs ih =>
    intro m
    rw [List.foldl_cons, ih (upsertCommit m c), upsertCommit_keys]
    split_ifs with h
    · simp only [List.any_eq_true, decide_eq_true_eq] at h
      obtain ⟨p, hp, hpe⟩ := h
      have hsha : c.hexsha ∈ m.map Prod.fst := hpe ▸ List.mem_map_of_mem Prod.fst hp
      simp only [List.map_cons, List.mem_cons]
      constructor
      · rintro (h' | h')
        · exact Or.inl h'
        · exact Or.inr (Or.inr h')
      · rintro (h' | h' | h')
        · exact Or.inl h'
        · exact Or.inl (h' ▸ hsha)
        · exact Or.inr h'
    · simp only [List.mem_append, List.mem_singleton, List.map_cons, List.mem_cons]
      tauto

theorem foldl_upsert_keys_nodup :
    ∀ (l : List Commit) (m : List (String × Commit)),
      (m.map Prod.fst).Nodup → ((l.foldl upsertCommit m).map Prod.fst).Nodup := by
  intro l
  induction l with
  | nil => intro m hm; simpa using hm
  | cons c cs ih =>
    intro m hm
    rw [List.foldl_cons]
    apply ih
    rw [upsertCommit_keys]
    split_ifs with h
    · exact hm
    · rw [List.nodup_append]
      refine ⟨hm, List.nodup_singleton _, ?_⟩
      intro x hx hx'
      rw [List.mem_singleton.mp hx'] at hx
      obtain ⟨p, hp, hpe⟩ := List.mem_map.mp hx
      have : m.any (fun p => p.1 = c.hexsha) = true :=
        List.any_eq_true.mpr ⟨p, hp, by simp [hpe]⟩
      exact absurd this (by simpa using h)

theorem foldl_upsert_kv :
    ∀ (l : List Commit) (m : List (String × Commit)),
      (∀ p ∈ m, Commit.hexsha p.2 = p.1) →
      ∀ p ∈ l.foldl upsertCommit m, Commit.hexsha p.2 = p.1 := by
  intro l
  induction l with
  | nil => intro m hm; simpa using hm
  | cons c cs ih =>
    intro m hm
    rw [List.foldl_cons]
    exact ih (upsertCommit m c) (upsertCommit_kv m c hm)

/-- The hexshas of the deduplicated list are exactly the keys of the
association list built by the dict comprehension. -/
theorem dedupByHexsha_shas (l : List Commit) :
    (dedupByHexsha l).map Commit.hexsha = (l.foldl upsertCommit []).map Prod.fst := by
  unfold dedupByHexsha
  rw [List.map_map]
  apply List.map_congr_left
  intro p hp
  exact foldl_upsert_kv l [] (by simp) p hp

theorem dedupByHexsha_nodup (l : List Commit) :
    ((dedupByHexsha l).map Commit.hexsha).Nodup := by
  rw [dedupByHexsha_shas]
  exact foldl_upsert_keys_nodup l [] (by simp)

theorem dedupByHexsha_mem (l : List Commit) (s : String) :
    s ∈ (dedupByHexsha l).map Commit.hexsha ↔ s ∈ l.map Commit.hexsha := by
  rw [dedupByHexsha_shas, foldl_upsert_keys_mem]
  simp

/-- Claim C6: whatever a repository query returns, the merged commit list
holds each commit identifier exactly once, and exactly the identifiers of the
raw (possibly multi-branch, duplicated) retrieval appear. -/
theorem c6_merged_unique (r : RepoB) (d : Int) (name : String) (cs : List Commit)
    (h : search_commits_in_repo r d = some (name, cs)) :
    (cs.map Commit.hexsha).Nodup
    ∧ ∀ s, s ∈ cs.map Commit.hexsha ↔ s ∈ (rawCommits r d).map Commit.hexsha := by
  have hcs : cs = dedupByHexsha (rawCommits r d) := by
    simp only [search_commits_in_repo] at h
    split_ifs at h
    rw [Option.some_inj] at h
    exact (congrArg Prod.snd h).symm
  subst hcs
  exact ⟨dedupByHexsha_nodup _, fun s => dedupByHexsha_mem _ s⟩

def repoC6 : RepoB :=
  ⟨["code", "proj"], true, ["main", "dev"], fun _ => false, fun _ => 1,
   fun _ _ => .ok [⟨"aa", 1⟩, ⟨"bb", 2⟩, ⟨"aa", 1⟩], fun _ _ _ => .error ()⟩

/-- Claim C6, witness: a combined retrieval that yields the same commit twice
(reachable from both branches) is merged into a list holding its identifier
exactly once. -/
theorem c6_witness :
    search_commits_in_repo repoC6 0 = some ("proj", [⟨"aa", 1⟩, ⟨"bb", 2⟩])
    ∧ (([⟨"aa", 1⟩, ⟨"bb", 2⟩] : List Commit).map Commit.hexsha).Nodup
    ∧ ∀ s, s ∈ ([⟨"aa", 1⟩, ⟨"bb", 2⟩] : List Commit).map Commit.hexsha
        ↔ s ∈ (rawCommits repoC6 0).map Commit.hexsha :=
  ⟨rfl, c6_merged_unique repoC6 0 "proj" [⟨"aa", 1⟩, ⟨"bb", 2⟩] rfl⟩

/-! # Per-branch fallback (claim C7) -/

theorem foldl_append_eq_flatten (f : String → List Commit) :
    ∀ (bs : List String) (acc : List Commit),
      bs.foldl (fun a b => a ++ f b) acc = acc ++ (bs.map f).flatten := by
  intro bs
  induction bs with
  | nil => intro acc; simp
  | cons b bs ih => intro acc; simp [ih, List.append_assoc]

/-- Claim C7: when the combined all-branches retrieval fails, the query is the
per-branch fallback — each enumerated branch queried individually with cap 50,
a failing branch skipped (contributing the empty list) without aborting the
query — returning `none` exactly when the merged deduplicated set is empty and
otherwise the repository's display name with the merged list. -/
theorem c7_fallback_per_branch (r : RepoB) (d : Int)
    (hopen : r.opens = true)
    (hbr : get_repo_branches r ≠ [])
    (hfail : r.combined d 100 = .error ()) :
    search_commits_in_repo r d =
      (if dedupByHexsha (((get_repo_branches r).map
            (fun b => okOrEmpty (r.perBranch d b 50))).flatten) = [] then none
       else some (basename r.path,
         dedupByHexsha (((get_repo_branches r).map
           (fun b => okOrEmpty (r.perBranch d b 50))).flatten))) := by
  have hraw : rawCommits r d
      = ((get_repo_branches r).map (fun b => okOrEmpty (r.perBranch d b 50))).flatten := by
    unfold rawCommits
    rw [hfail]
    show (get_repo_branches r).foldl (fun acc b => acc ++ okOrEmpty (r.perBranch d b 50)) [] = _
    rw [foldl_append_eq_flatten (fun b => okOrEmpty (r.perBranch d b 50)) (get_repo_branches r) []]
    simp
  simp only [search_commits_in_repo, hopen, if_true, hraw]
  rw [if_neg hbr]

def repoC7 : RepoB :=
  ⟨["code", "fb"], true, ["b1", "b2"], fun _ => false, fun _ => 1,
   fun _ _ => .error (),
   fun _ b _ => if b = "b2" then .ok [⟨"cc", 3⟩] else .error ()⟩

/-- Claim C7, witness: combined retrieval fails, branch `b1` fails and is
skipped, branch `b2` succeeds; the query returns the name with `b2`'s commit. -/
theorem c7_witness :
    repoC7.opens = true
    ∧ get_repo_branches repoC7 ≠ []
    ∧ repoC7.combined 0 100 = .error ()
    ∧ search_commits_in_repo repoC7 0 =
      (if dedupByHexsha (((get_repo_branches repoC7).map
            (fun b => okOrEmpty (repoC7.perBranch 0 b 50))).flatten) = [] then none
       else some (basename repoC7.path,
         dedupByHexsha (((get_repo_branches repoC7).map
           (fun b => okOrEmpty (repoC7.perBranch 0 b 50))).flatten))) :=
  ⟨rfl, by decide, rfl, c7_fallback_per_branch repoC7 0 rfl (by decide) rfl⟩

/-! # Repository-name keying (claim C9) -/

/-- The name under which a successful query is merged is always the basename
of the repository's path, never the full path. -/
theorem search_commits_name_is_basename (r : RepoB) (d : Int) (name : String)
    (cs : List Commit) (h : search_commits_in_repo r d = some (name, cs)) :
    name = basename r.path := by
  simp only [search_commits_in_repo] at h
  split_ifs at h
  rw [Option.some_inj] at h
  exact (congrArg Prod.fst h).symm

/-- Claim C9: two distinct repositories whose root directories share a
basename are merged under that single key — the scheduler's result maps the
shared basename to the concatenation of both commit lists, one entry in
total. -/
theorem c9_basename_key (r1 r2 : RepoB) (d : Int) (b : String) (u1 u2 : List Commit)
    (hne : r1.path ≠ r2.path)
    (hb1 : basename r1.path = b) (hb2 : basename r2.path = b)
    (ht1 : r1.timeoutAt d = false) (ht2 : r2.timeoutAt d = false)
    (h1 : search_commits_in_repo r1 d = some (b, u1))
    (h2 : search_commits_in_repo r2 d = some (b, u2)) :
    (search_date_range [r1, r2] d).results = [(b, u1 ++ u2)] := by
  simp [search_date_range, searchRepoStep, extendAssoc, ht1, ht2, h1, h2]

def repoC9a : RepoB :=
  ⟨["x", "foo"], true, ["main"], fun _ => false, fun _ => 2,
   fun _ _ => .ok [⟨"a1", 5⟩], fun _ _ _ => .error ()⟩

def repoC9b : RepoB :=
  ⟨["y", "foo"], true, ["main"], fun _ => false, fun _ => 3,
   fun _ _ => .ok [⟨"b1", 6⟩], fun _ _ _ => .error ()⟩

/-- Claim C9, witness: `x/foo` and `y/foo` are distinct repositories with the
same basename; their commits end up under the single key `"foo"`. -/
theorem c9_witness :
    repoC9a.path ≠ repoC9b.path
    ∧ search_commits_in_repo repoC9a 0 = some ("foo", [⟨"a1", 5⟩])
    ∧ search_commits_in_repo repoC9b 0 = some ("foo", [⟨"b1", 6⟩])
    ∧ (search_date_range [repoC9a, repoC9b] 0).results = [("foo", [⟨"a1", 5⟩, ⟨"b1", 6⟩])] :=
  ⟨by decide, rfl, rfl,
   c9_basename_key repoC9a repoC9b 0 "foo" [⟨"a1", 5⟩] [⟨"b1", 6⟩]
     (by decide) rfl rfl rfl rfl rfl rfl⟩

/-! # Display and seen-set lemmas (claims C4, C5, C8) -/

theorem dispGo_seen_mono (s : String) :
    ∀ (l : List Commit) (seen : List String), s ∈ seen → s ∈ (dispGo l seen).2 := by
  intro l
  induction l with
  | nil => intro seen h; simpa [dispGo] using h
  | cons c cs ih =>
    intro seen h
    by_cases hc : c.hexsha ∈ seen
    · simpa [dispGo, hc] using ih seen h
    · have h' : s ∈ seen ++ [c.hexsha] := List.mem_append.mpr (Or.inl h)
      simpa [dispGo, hc] using ih (seen ++ [c.hexsha]) h'

theorem dispGo_flags_not_seen (s : String) :
    ∀ (l : List Commit) (seen : List String), s ∈ (dispGo l seen).1 → s ∉ seen := by
  intro l
  induction l with
  | nil => intro seen h; simp [dispGo] at h
  | cons c cs ih =>
    intro seen h
    by_cases hc : c.hexsha ∈ seen
    · exact ih seen (by simpa [dispGo, hc] using h)
    · simp only [dispGo, if_neg hc] at h
      rcases List.mem_cons.mp h with h' | h'
      · exact h' ▸ hc
      · intro hs
        exact ih (seen ++ [c.hexsha]) h' (List.mem_append.mpr (Or.inl hs))

theorem dispGo_flags_shas (s : String) :
    ∀ (l : List Commit) (seen : List String),
      s ∈ (dispGo l seen).1 → s ∈ l.map Commit.hexsha := by
  intro l
  induction l with
  | nil => intro seen h; simp [dispGo] at h
  | cons c cs ih =>
    intro seen h
    by_cases hc : c.hexsha ∈ seen
    · exact List.mem_cons_of_mem _ (ih seen (by simpa [dispGo, hc] using h))
    · simp only [dispGo, if_neg hc] at h
      rcases List.mem_cons.mp h with h' | h'
      · exact h' ▸ List.mem_cons_self _ _
      · exact List.mem_cons_of_mem _ (ih (seen ++ [c.hexsha]) h')

theorem dispGo_flags_in_seen (s : String) :
    ∀ (l : List Commit) (seen : List String),
      s ∈ (dispGo l seen).1 → s ∈ (dispGo l seen).2 := by
  intro l
  induction l with
  | nil => intro seen h; simp [dispGo] at h
  | cons c cs ih =>
    intro seen h
    by_cases hc : c.hexsha ∈ seen
    · simp only [dispGo, if_pos hc] at h ⊢
      exact ih seen h
    · simp only [dispGo, if_neg hc] at h ⊢
      rcases List.mem_cons.mp h with h' | h'
      · subst h'
        exact dispGo_seen_mono c.hexsha cs (seen ++ [c.hexsha]) (by simp)
      · exact ih (seen ++ [c.hexsha]) h'

theorem extendAssoc_flatten_sub (m : List (String × List Commit)) (kk : String)
    (cs : List Commit) (c : Commit) (hc : c ∈ (m.map Prod.snd).flatten) :
    c ∈ ((extendAssoc m kk cs).map Prod.snd).flatten := by
  rcases List.mem_flatten.mp hc with ⟨l, hl, hcl⟩
  rcases List.mem_map.mp hl with ⟨p, hp, rfl⟩
  unfold extendAssoc
  split_ifs with hk
  · by_cases hpk : p.1 = kk
    · apply List.mem_flatten.mpr
      refine ⟨p.2 ++ cs, ?_, List.mem_append.mpr (Or.inl hcl)⟩
      apply List.mem_map.mpr
      refine ⟨(p.1, p.2 ++ cs), List.mem_map.mpr ⟨p, hp, ?_⟩, rfl⟩
      show (if p.1 = kk then (p.1, p.2 ++ cs) else p) = (p.1, p.2 ++ cs)
      rw [if_pos hpk]
    · apply List.mem_flatten.mpr
      refine ⟨p.2, ?_, hcl⟩
      apply List.mem_map.mpr
      refine ⟨p, List.mem_map.mpr ⟨p, hp, ?_⟩, rfl⟩
      show (if p.1 = kk then (p.1, p.2 ++ cs) else p) = p
      rw [if_neg hpk]
  · apply List.mem_flatten.mpr
    exact ⟨p.2, List.mem_map.mpr ⟨p, List.mem_append.mpr (Or.inl hp), rfl⟩, hcl⟩

theorem shasOf_extendAssoc (s : String) (m : List (String × List Commit)) (kk : String)
    (cs : List Commit) (h : s ∈ shasOf m) : s ∈ shasOf (extendAssoc m kk cs) := by
  unfold shasOf at h ⊢
  rcases List.mem_map.mp h with ⟨c, hc, rfl⟩
  exact List.mem_map.mpr ⟨c, extendAssoc_flatten_sub m kk cs c hc, rfl⟩

theorem shasOf_mergeResults (s : String) :
    ∀ (res ar : List (String × List Commit)) (seen : List String),
      s ∈ shasOf ar → s ∈ shasOf (mergeResults ar seen res) := by
  intro res
  induction res with
  | nil => intro ar seen h; simpa [mergeResults] using h
  | cons p ps ih =>
    intro ar seen h
    show s ∈ shasOf (mergeResults
      (extendAssoc ar p.1 (p.2.filter (fun c => c.hexsha ∉ seen))) seen ps)
    exact ih _ seen (shasOf_extendAssoc s ar p.1 _ h)

/-- The cumulative result only grows across a round. -/
theorem shasOf_roundARes (repos : List RepoB) (d t : Int) (k : Nat) (st : ExpState)
    (s : String) (h : s ∈ shasOf st.all_results) :
    s ∈ shasOf (roundARes repos d t k st) :=
  shasOf_mergeResults s _ _ _ (shasOf_mergeResults s _ _ _ h)

theorem roundDisp_flags_not_seen (repos : List RepoB) (d t : Int) (k : Nat)
    (st : ExpState) (s : String) (h : s ∈ (roundDisp repos d t k st).1) :
    s ∉ st.seen := by
  unfold roundDisp at h
  split_ifs at h with he
  · simp at h
  · exact dispGo_flags_not_seen s _ st.seen h

theorem roundDisp_flags_shas (repos : List RepoB) (d t : Int) (k : Nat)
    (st : ExpState) (s : String) (h : s ∈ (roundDisp repos d t k st).1) :
    s ∈ shasOf (roundARes repos d t k st) := by
  unfold roundDisp at h
  split_ifs at h with he
  · simp at h
  · exact dispGo_flags_shas s _ st.seen h

theorem roundDisp_seen_mono (repos : List RepoB) (d t : Int) (k : Nat)
    (st : ExpState) (s : String) (h : s ∈ st.seen) :
    s ∈ (roundDisp repos d t k st).2.1 := by
  unfold roundDisp
  split_ifs with he
  · exact h
  · exact dispGo_seen_mono s _ st.seen h

theorem roundDisp_flags_in_seen (repos : List RepoB) (d t : Int) (k : Nat)
    (st : ExpState) (s : String) (h : s ∈ (roundDisp repos d t k st).1) :
    s ∈ (roundDisp repos d t k st).2.1 := by
  unfold roundDisp at h ⊢
  split_ifs at h ⊢ with he
  · simp at h
  · exact dispGo_flags_in_seen s _ st.seen h

/-- A commit identifier already seen and already stored when a round begins is
not flagged by that round, stays stored, and stays seen. -/
theorem expandRound_stable (repos : List RepoB) (d t : Int) (k : Nat) (st : ExpState)
    (s : String) (h1 : s ∈ st.seen) (h2 : s ∈ shasOf st.all_results) :
    s ∉ (expandRound repos d t k st).1.newFlags
    ∧ s ∈ (expandRound repos d t k st).1.resShas
    ∧ s ∈ (expandRound repos d t k st).2.seen
    ∧ s ∈ shasOf (expandRound repos d t k st).2.all_results :=
  ⟨fun hf => roundDisp_flags_not_seen repos d t k st s hf h1,
   shasOf_roundARes repos d t k st s h2,
   roundDisp_seen_mono repos d t k st s h1,
   shasOf_roundARes repos d t k st s h2⟩

/-- A commit identifier flagged by a round is seen and stored afterwards. -/
theorem expandRound_flags (repos : List RepoB) (d t : Int) (k : Nat) (st : ExpState)
    (s : String) (hf : s ∈ (expandRound repos d t k st).1.newFlags) :
    s ∈ (expandRound repos d t k st).2.seen
    ∧ s ∈ shasOf (expandRound repos d t k st).2.all_results :=
  ⟨roundDisp_flags_in_seen repos d t k st s hf,
   roundDisp_flags_shas repos d t k st s hf⟩

/-- Once an identifier is in the seen set and the cumulative result, every
later round of the loop neither flags it again nor drops it. -/
theorem expandLoop_stable (repos : List RepoB) (d t : Int) (s : String) :
    ∀ (resp : List String) (k : Nat) (st : ExpState),
      s ∈ st.seen → s ∈ shasOf st.all_results →
      ∀ e ∈ (expandLoop repos d t k st resp).1, s ∉ e.newFlags ∧ s ∈ e.resShas := by
  intro resp
  induction resp with
  | nil => intro k st h1 h2 e he; simp [expandLoop] at he
  | cons r rest ih =>
    intro k st h1 h2 e he
    by_cases hr : promptLower r ≠ "y"
    · simp [expandLoop, hr] at he
    · simp only [expandLoop, if_neg hr] at he
      rcases List.mem_cons.mp he with h' | h'
      · subst h'
        obtain ⟨a, b, _, _⟩ := expandRound_stable repos d t k st s h1 h2
        exact ⟨a, b⟩
      · obtain ⟨_, _, c', d'⟩ := expandRound_stable repos d t k st s h1 h2
        exact ih (k + 1) (expandRound repos d t k st).2 c' d' e h'

/-- An identifier flagged by some round of the loop is not flagged by any
strictly later round, and remains in that later round's cumulative result. -/
theorem expandLoop_split (repos : List RepoB) (d t : Int) (s : String) :
    ∀ (resp : List String) (k : Nat) (st : ExpState) (pre mid post : List RoundInfo)
      (e1 e2 : RoundInfo),
      (expandLoop repos d t k st resp).1 = pre ++ e1 :: (mid ++ e2 :: post) →
      s ∈ e1.newFlags → s ∉ e2.newFlags ∧ s ∈ e2.resShas := by
  intro resp
  induction resp with
  | nil =>
    intro k st pre mid post e1 e2 h hs
    simp [expandLoop] at h
  | cons r rest ih =>
    intro k st pre mid post e1 e2 h hs
    by_cases hr : promptLower r ≠ "y"
    · simp [expandLoop, hr] at h
    · simp only [expandLoop, if_neg hr] at h
      cases pre with
      | nil =>
        simp only [List.nil_append] at h
        injection h with hh ht
        rw [← hh] at hs
        obtain ⟨c', d'⟩ := expandRound_flags repos d t k st s hs
        have he2 : e2 ∈ (expandLoop repos d t (k + 1) (expandRound repos d t k st).2 rest).1 := by
          rw [ht]; simp
        exact expandLoop_stable repos d t s rest (k + 1) _ c' d' e2 he2
      | cons p pre' =>
        simp only [List.cons_append] at h
        injection h with hh ht
        exact ih (k + 1) (expandRound repos d t k st).2 pre' mid post e1 e2 ht hs

/-- Claim C5: a commit identifier flagged "NEW" by some round of a session is
never flagged again by any later round — even if a later window re-encounters
the commit — and it remains in the cumulative result every later round. -/
theorem c5_seen_set_idempotent (repos : List RepoB) (d t : Int) (responses : List String)
    (s : String) (pre mid post : List RoundInfo) (e1 e2 : RoundInfo)
    (h : (search_adjacent_dates repos d t responses).1 = pre ++ e1 :: (mid ++ e2 :: post))
    (hs : s ∈ e1.newFlags) : s ∉ e2.newFlags ∧ s ∈ e2.resShas := by
  simp only [search_adjacent_dates] at h
  cases pre with
  | nil =>
    simp only [List.nil_append] at h
    injection h with hh ht
    rw [← hh] at hs
    have hseen : s ∈ (displayCommits (search_date_range repos d).results []).2.1 :=
      dispGo_flags_in_seen s _ [] hs
    have hshas : s ∈ shasOf (search_date_range repos d).results :=
      dispGo_flags_shas s _ [] hs
    have he2 : e2 ∈ (expandLoop repos d t 1
        ⟨(search_date_range repos d).results,
         (displayCommits (search_date_range repos d).results []).2.1,
         (displayCommits (search_date_range repos d).results []).2.2⟩ responses).1 := by
      rw [ht]; simp
    exact expandLoop_stable repos d t s responses 1 _ hseen hshas e2 he2
  | cons p pre' =>
    simp only [List.cons_append] at h
    injection h with hh ht
    exact expandLoop_split repos d t s responses 1 _ pre' mid post e1 e2 ht hs

/-! # Expansion windows (claim C4) -/

theorem expandLoop_round_dates (repos : List RepoB) (d t : Int) :
    ∀ (resp : List String) (k : Nat) (st : ExpState) (e : RoundInfo),
      e ∈ (expandLoop repos d t k st resp).1 →
      k ≤ e.k ∧ e.dates = [d - (e.k : Int),
        if d + (e.k : Int) > t then t else d + (e.k : Int)] := by
  intro resp
  induction resp with
  | nil => intro k st e he; simp [expandLoop] at he
  | cons r rest ih =>
    intro k st e he
    by_cases hr : promptLower r ≠ "y"
    · simp [expandLoop, hr] at he
    · simp only [expandLoop, if_neg hr] at he
      rcases List.mem_cons.mp he with h' | h'
      · subst h'
        exact ⟨Nat.le_refl k, rfl⟩
      · have := ih (k + 1) (expandRound repos d t k st).2 e h'
        exact ⟨Nat.le_of_succ_le this.1, this.2⟩

/-- Claim C4: every expansion round `k ≥ 1` that a session performs queries
exactly the two one-day windows `date − k` and `date + k`, the latter clamped
so it never exceeds the current date. -/
theorem c4_round_windows (repos : List RepoB) (d t : Int) (responses : List String)
    (e : RoundInfo) (he : e ∈ (search_adjacent_dates repos d t responses).1)
    (hk : 1 ≤ e.k) :
    e.dates = [d - (e.k : Int), min (d + (e.k : Int)) t] := by
  simp only [search_adjacent_dates] at he
  rcases List.mem_cons.mp he with h' | h'
  · subst h'
    simp at hk
  · have hd := (expandLoop_round_dates repos d t responses 1 _ e h').2
    rw [hd]
    by_cases hlt : d + (e.k : Int) > t
    · rw [if_pos hlt, min_eq_right (le_of_lt hlt)]
    · rw [if_neg hlt, min_eq_left (by omega)]

/-! # The expansion prompt (claim C8) -/

/-- Claim C8: an empty response to the expansion prompt counts as accept (the
`Prompt.ask` default), while any non-empty response whose lowercased form is
not exactly `"y"` — `"yes"` included — is a decline and stops the loop with
the accumulated state; an empty response makes the loop run another round. -/
theorem c8_prompt_strict_y :
    promptLower "" = "y"
    ∧ promptLower "yes" ≠ "y"
    ∧ (∀ s, s ≠ "" → pyLower s ≠ "y" → promptLower s ≠ "y")
    ∧ (∀ (repos : List RepoB) (d t : Int) (k : Nat) (st : ExpState) (r : String)
        (rest : List String), promptLower r ≠ "y" →
        expandLoop repos d t k st (r :: rest) = ([], st))
    ∧ (∀ (repos : List RepoB) (d t : Int) (k : Nat) (st : ExpState)
        (rest : List String), ∃ e tr, (expandLoop repos d t k st ("" :: rest)).1 = e :: tr) := by
  refine ⟨rfl, by decide, ?_, ?_, ?_⟩
  · intro s h1 h2
    simpa [promptLower, h1] using h2
  · intro repos d t k st r rest h
    simp [expandLoop, h]
  · intro repos d t k st rest
    refine ⟨(expandRound repos d t k st).1,
      (expandLoop repos d t (k + 1) (expandRound repos d t k st).2 rest).1, ?_⟩
    simp only [expandLoop]
    rw [if_neg (by decide : ¬(promptLower "" ≠ "y"))]

/-- Claim C8, witness: `"yes"` declines and stops the loop unchanged; `""`
accepts and produces a round. -/
theorem c8_witness :
    promptLower "yes" ≠ "y"
    ∧ expandLoop [] 0 0 1 ⟨[], [], 0⟩ ["yes"] = ([], ⟨[], [], 0⟩)
    ∧ promptLower "" = "y"
    ∧ ∃ e tr, (expandLoop [] 0 0 1 ⟨[], [], 0⟩ [""]).1 = e :: tr :=
  ⟨c8_prompt_strict_y.2.1,
   c8_prompt_strict_y.2.2.2.1 [] 0 0 1 ⟨[], [], 0⟩ "yes" [] c8_prompt_strict_y.2.1,
   c8_prompt_strict_y.1,
   c8_prompt_strict_y.2.2.2.2 [] 0 0 1 ⟨[], [], 0⟩ []⟩

/-! # Concrete sessions (witnesses for claims C1, C4, C5) -/

/-- Claim C1, witness for the amended theorem at a concrete repository tree. -/
theorem c1_witness :
    hasGitEntry [DirNode.mk ".git" .valid []] = true
    ∧ SKIP_DIRS.contains ".git" = false
    ∧ (∀ c ∈ [DirNode.mk ".git" RepoKind.valid []], c.name = ".git" →
        (([] : List String) ++ ["r"]) ++ [c.name]
          ∈ (walkDir SKIP_DIRS [] (.mk "r" .valid [.mk ".git" .valid []])).visited) :=
  ⟨by decide, by decide,
   (c1_classify_record_descend SKIP_DIRS [] "r" .valid [.mk ".git" .valid []]
     (by decide) (by decide)).2.2.2.2⟩

def repoC5 : RepoB :=
  ⟨["w", "rep"], true, ["main"], fun _ => false, fun _ => 1,
   fun _ _ => .ok [⟨"aaa", 99⟩], fun _ _ _ => .error ()⟩

/-- Claim C5, witness: a session over a repository whose commit `aaa` matches
every window.  `aaa` is flagged by the initial display; the accepted expansion
round re-encounters it, flags nothing, and keeps it in the cumulative
result. -/
theorem c5_witness :
    (search_adjacent_dates [repoC5] 10 10 ["y"]).1
      = [] ++ (⟨0, [10], ["aaa"], ["aaa"], 1⟩ : RoundInfo)
          :: ([] ++ (⟨1, [9, 10], [], ["aaa"], 1⟩ : RoundInfo) :: [])
    ∧ "aaa" ∈ (⟨0, [10], ["aaa"], ["aaa"], 1⟩ : RoundInfo).newFlags
    ∧ ("aaa" ∉ (⟨1, [9, 10], [], ["aaa"], 1⟩ : RoundInfo).newFlags
       ∧ "aaa" ∈ (⟨1, [9, 10], [], ["aaa"], 1⟩ : RoundInfo).resShas) :=
  ⟨by decide, by decide,
   c5_seen_set_idempotent [repoC5] 10 10 ["y"] "aaa" [] [] []
     ⟨0, [10], ["aaa"], ["aaa"], 1⟩ ⟨1, [9, 10], [], ["aaa"], 1⟩ (by decide) (by decide)⟩

/-- Claim C4, witness: in the same session the round at offset 1 queries
exactly days 9 and 10 — the `date + 1 = 11` window is clamped to today = 10. -/
theorem c4_witness :
    (⟨1, [9, 10], [], ["aaa"], 1⟩ : RoundInfo) ∈ (search_adjacent_dates [repoC5] 10 10 ["y"]).1
    ∧ (⟨1, [9, 10], [], ["aaa"], 1⟩ : RoundInfo).dates
      = [10 - (((⟨1, [9, 10], [], ["aaa"], 1⟩ : RoundInfo).k : Nat) : Int),
         min (10 + (((⟨1, [9, 10], [], ["aaa"], 1⟩ : RoundInfo).k : Nat) : Int)) 10] :=
  ⟨by decide,
   c4_round_windows [repoC5] 10 10 ["y"] ⟨1, [9, 10], [], ["aaa"], 1⟩
     (by decide) (by decide)⟩
